import Mathlib

/- Shallow embedding of src/binary-stride.cpp.

   A C array `int a[]` together with its length `sz` becomes a `List Int`
   (so `sz` is `a.length`).  An element access that the source dominates by
   an explicit bounds check is modelled with `ith` (total access); an
   UNGUARDED access is modelled optionally, and a `none` result of an
   embedded function marks a run that attempts an out-of-bounds read.
   C `int` arithmetic on the small reachable values coincides with `Int`;
   the one place where 32-bit wrap-around matters (the midpoint sum of
   `binary_search`) is modelled separately by `toInt32` and `mid_code`. -/

/-- Element read a[i] at an index the source code has already bounds-checked. -/
def ith (a : List Int) (i : Nat) : Int := a.getD i 0

/-- Loop of binary_search (source lines 112-118): while l <= r, take
    mid = (l + r) >> 1 and compare a[mid] with the needle.  The arithmetic
    right shift by one is floor division by 2, which is Lean Int division.
    The access a[mid] is in bounds on every reachable state (the invariant
    0 <= l and r < sz is kept by the loop), so it is modelled with ith. -/
def binary_search_go (a : List Int) (needle : Int) (l r : Int) : Int :=
  if h : l ≤ r then
    let mid := (l + r) / 2
    if ith a mid.toNat = needle then mid
    else if ith a mid.toNat < needle then binary_search_go a needle (mid + 1) r
    else binary_search_go a needle l (mid - 1)
  else -1
termination_by (r + 1 - l).toNat
decreasing_by all_goals omega

/-- binary_search (source lines 111-120): l starts at 0 and r at sz - 1. -/
def binary_search (a : List Int) (needle : Int) : Int :=
  binary_search_go a needle 0 ((a.length : Int) - 1)

/-- Inner while loop of binary_stride (source line 175):
    while (pos + stride < sz && a[pos+stride] <= needle) pos += stride.
    The outer loop only runs it with stride >= 1, so the stride is passed
    as s1 with stride = s1 + 1 (this is what makes pos strictly increase,
    hence the loop terminate).  The access is guarded by pos + stride < sz. -/
def strideInner (a : List Int) (needle : Int) (s1 pos : Nat) : Nat :=
  if h : pos + (s1 + 1) < a.length ∧ ith a (pos + (s1 + 1)) ≤ needle then
    strideInner a needle s1 (pos + (s1 + 1))
  else pos
termination_by a.length - pos
decreasing_by omega

/-- Outer for loop of binary_stride (source line 174):
    for (stride = sz/2; stride >= 1; stride /= 2). -/
def strideOuter (a : List Int) (needle : Int) (stride pos : Nat) : Nat :=
  if 1 ≤ stride then
    strideOuter a needle (stride / 2) (strideInner a needle (stride - 1) pos)
  else pos
termination_by stride
decreasing_by omega

/-- binary_stride (source lines 172-179).  The final check a[pos] == needle
    (line 177) is NOT bounds-guarded in the source, so it is modelled with
    the optional access: a none result is a run that reads out of bounds
    (this happens exactly on the empty array). -/
def binary_stride (a : List Int) (needle : Int) : Option Int :=
  let pos := strideOuter a needle (a.length / 2) 0
  match a[pos]? with
  | some v => some (if v = needle then (pos : Int) else -1)
  | none => none

/-- Inner while loop of find_crossover_point (source line 219):
    while (fn(a[pos+stride]) <= 0) pos += stride.  The element access is
    completely unguarded in the source: the embedding first checks whether
    the index is in range and aborts the run with none (an out-of-bounds
    read) when it is not, otherwise reads the element and tests the
    condition of the source.  The stride is again passed as s1 + 1 (the
    outer loop only uses strides >= 1). -/
def crossInner (a : List Int) (fn : Int → Int) (s1 pos : Nat) : Option Nat :=
  if pos + (s1 + 1) < a.length then
    if fn (ith a (pos + (s1 + 1))) ≤ 0 then crossInner a fn s1 (pos + (s1 + 1))
    else some pos
  else none
termination_by a.length - pos
decreasing_by omega

/-- Outer for loop of find_crossover_point (source line 218), identical in
    shape to the one of binary_stride. -/
def crossOuter (a : List Int) (fn : Int → Int) (stride pos : Nat) : Option Nat :=
  if 1 ≤ stride then
    match crossInner a fn (stride - 1) pos with
    | some p => crossOuter a fn (stride / 2) p
    | none => none
  else some pos
termination_by stride
decreasing_by omega

/-- find_crossover_point (source lines 216-222).  The undefined external
    function fn is the injected monotone predicate; it receives the ELEMENT
    a[pos+stride], as in the source.  A none result marks a run that
    attempts an out-of-bounds read. -/
def find_crossover_point (a : List Int) (fn : Int → Int) : Option Nat :=
  crossOuter a fn (a.length / 2) 0

/-- Modelled from the spec (section 4.3): the crossover routine exactly as
    the spec describes its control structure, with the inner-loop advance
    condition left as a parameter adv on the probed element: same
    decaying-stride traversal, no equality check at the end, the terminal
    pos is the answer.  Instantiating adv decides which advance condition
    the routine uses; comparing the instances with find_crossover_point
    settles what condition the source actually implements.  Inner loop. -/
def advInner (a : List Int) (adv : Int → Prop) [DecidablePred adv]
    (s1 pos : Nat) : Option Nat :=
  if pos + (s1 + 1) < a.length then
    if adv (ith a (pos + (s1 + 1))) then advInner a adv s1 (pos + (s1 + 1))
    else some pos
  else none
termination_by a.length - pos
decreasing_by omega

/-- Modelled from the spec (section 4.3): outer decaying-stride loop of the
    parametrized crossover routine. -/
def advOuter (a : List Int) (adv : Int → Prop) [DecidablePred adv]
    (stride pos : Nat) : Option Nat :=
  if 1 ≤ stride then
    match advInner a adv (stride - 1) pos with
    | some p => advOuter a adv (stride / 2) p
    | none => none
  else some pos
termination_by stride
decreasing_by omega

/-- Modelled from the spec (section 4.3): the parametrized crossover
    routine; stride starts at n / 2 and pos at 0, the terminal pos is
    returned with no further check. -/
def crossover_template (a : List Int) (adv : Int → Prop) [DecidablePred adv] :
    Option Nat :=
  advOuter a adv (a.length / 2) 0

/-- Reduction of an integer to the 32-bit two-complement value a C int
    holds: wrap into the interval from -2^31 to 2^31 - 1. -/
def toInt32 (x : Int) : Int := (x + 2 ^ 31) % 2 ^ 32 - 2 ^ 31

/-- The midpoint computation of binary_search, (l + r) >> 1 (source line
    114), as a 32-bit machine executes it: the sum wraps to 32 bits, then
    the arithmetic right shift floors.  Division by 2 on Lean Int is floor
    division, matching the arithmetic shift. -/
def mid_code (l r : Int) : Int := toInt32 (l + r) / 2

/-- Modelled from the spec: the overflow-proof midpoint formula the spec
    prescribes for binary_search, low + (high - low) / 2, which stays in
    32-bit range whenever 0 <= low <= high < 2^31. -/
def mid_spec (l r : Int) : Int := l + (r - l) / 2

/- Fuel-indexed variants of the three routines, one fuel unit per loop
   iteration, returning none when the fuel runs out.  They support the
   bounded-execution (termination) statements: with enough fuel each
   variant returns some of the value of the direct embedding. -/

/-- Fuel-indexed loop of binary_search. -/
def bsearchF (a : List Int) (needle : Int) : Nat → Int → Int → Option Int
  | 0, _, _ => none
  | fuel + 1, l, r =>
    if l ≤ r then
      if ith a ((l + r) / 2).toNat = needle then some ((l + r) / 2)
      else if ith a ((l + r) / 2).toNat < needle then
        bsearchF a needle fuel ((l + r) / 2 + 1) r
      else bsearchF a needle fuel l ((l + r) / 2 - 1)
    else some (-1)

/-- Fuel-indexed binary_search. -/
def binary_searchF (a : List Int) (needle : Int) (fuel : Nat) : Option Int :=
  bsearchF a needle fuel 0 ((a.length : Int) - 1)

/-- Fuel-indexed inner loop of binary_stride. -/
def strideInnerF (a : List Int) (needle : Int) (s1 : Nat) :
    Nat → Nat → Option Nat
  | 0, _ => none
  | fuel + 1, pos =>
    if pos + (s1 + 1) < a.length ∧ ith a (pos + (s1 + 1)) ≤ needle then
      strideInnerF a needle s1 fuel (pos + (s1 + 1))
    else some pos

/-- Fuel-indexed outer loop of binary_stride. -/
def strideOuterF (a : List Int) (needle : Int) : Nat → Nat → Nat → Option Nat
  | 0, _, _ => none
  | fuel + 1, stride, pos =>
    if 1 ≤ stride then
      match strideInnerF a needle (stride - 1) fuel pos with
      | some p => strideOuterF a needle fuel (stride / 2) p
      | none => none
    else some pos

/-- Fuel-indexed binary_stride: the outer none is fuel exhaustion, the
    inner Option is the result of binary_stride (with its own none marking
    the out-of-bounds final read). -/
def binary_strideF (a : List Int) (needle : Int) (fuel : Nat) :
    Option (Option Int) :=
  match strideOuterF a needle fuel (a.length / 2) 0 with
  | some pos =>
      some (match a[pos]? with
            | some v => some (if v = needle then (pos : Int) else -1)
            | none => none)
  | none => none

/-- Fuel-indexed inner loop of find_crossover_point: the outer none is fuel
    exhaustion, some none is the out-of-bounds read. -/
def crossInnerF (a : List Int) (fn : Int → Int) (s1 : Nat) :
    Nat → Nat → Option (Option Nat)
  | 0, _ => none
  | fuel + 1, pos =>
    if pos + (s1 + 1) < a.length then
      if fn (ith a (pos + (s1 + 1))) ≤ 0 then
        crossInnerF a fn s1 fuel (pos + (s1 + 1))
      else some (some pos)
    else some none

/-- Fuel-indexed outer loop of find_crossover_point. -/
def crossOuterF (a : List Int) (fn : Int → Int) :
    Nat → Nat → Nat → Option (Option Nat)
  | 0, _, _ => none
  | fuel + 1, stride, pos =>
    if 1 ≤ stride then
      match crossInnerF a fn (stride - 1) fuel pos with
      | some (some p) => crossOuterF a fn fuel (stride / 2) p
      | some none => some none
      | none => none
    else some (some pos)

/-- Fuel-indexed find_crossover_point. -/
def find_crossover_pointF (a : List Int) (fn : Int → Int) (fuel : Nat) :
    Option (Option Nat) :=
  crossOuterF a fn fuel (a.length / 2) 0

/- Helper lemmas about list access and sortedness. -/

theorem ith_eq_getElem (a : List Int) (i : Nat) (h : i < a.length) :
    ith a i = a[i] := by
  simp [ith, List.getD_eq_getElem?_getD, List.getElem?_eq_getElem h]

theorem sorted_ith (a : List Int) (hs : List.Sorted (· ≤ ·) a) (i j : Nat)
    (hij : i ≤ j) (hj : j < a.length) : ith a i ≤ ith a j := by
  rw [ith_eq_getElem a i (lt_of_le_of_lt hij hj), ith_eq_getElem a j hj]
  have h := hs.rel_get_of_le (a := ⟨i, lt_of_le_of_lt hij hj⟩) (b := ⟨j, hj⟩) hij
  simpa [List.get_eq_getElem] using h

theorem ith_mem (a : List Int) (i : Nat) (h : i < a.length) : ith a i ∈ a := by
  rw [ith_eq_getElem a i h]; exact List.getElem_mem h

/- Invariants of the binary_stride loops.  The inner loop only moves pos
   forward, stops exactly when the guard fails, and every position it moves
   to carries an element at most the needle; the outer loop inherits all
   three properties, and when it ran at all (stride >= 1), its last level
   had stride 1, so the final guard failure speaks about pos + 1. -/

theorem strideInner_le (a : List Int) (x : Int) (s1 pos : Nat) :
    pos ≤ strideInner a x s1 pos := by
  induction pos using strideInner.induct a x s1 with
  | case1 pos h ih => rw [strideInner, dif_pos h]; omega
  | case2 pos h => rw [strideInner, dif_neg h]

theorem strideInner_exit (a : List Int) (x : Int) (s1 pos : Nat) :
    ¬(strideInner a x s1 pos + (s1 + 1) < a.length ∧
      ith a (strideInner a x s1 pos + (s1 + 1)) ≤ x) := by
  induction pos using strideInner.induct a x s1 with
  | case1 pos h ih => rw [strideInner, dif_pos h]; exact ih
  | case2 pos h => rw [strideInner, dif_neg h]; exact h

theorem strideInner_visited (a : List Int) (x : Int) (s1 pos : Nat) :
    strideInner a x s1 pos = pos ∨
      (strideInner a x s1 pos < a.length ∧ ith a (strideInner a x s1 pos) ≤ x) := by
  induction pos using strideInner.induct a x s1 with
  | case1 pos h ih =>
      rw [strideInner, dif_pos h]
      rcases ih with h1 | h1
      · right; rw [h1]; exact ⟨h.1, h.2⟩
      · right; exact h1
  | case2 pos h => left; rw [strideInner, dif_neg h]

theorem strideOuter_le (a : List Int) (x : Int) (stride pos : Nat) :
    pos ≤ strideOuter a x stride pos := by
  induction stride, pos using strideOuter.induct a x with
  | case1 stride pos h ih =>
      rw [strideOuter, if_pos h]
      exact le_trans (strideInner_le a x (stride - 1) pos) ih
  | case2 stride pos h => rw [strideOuter, if_neg h]

theorem strideOuter_exit (a : List Int) (x : Int) (stride pos : Nat) :
    1 ≤ stride →
      ¬(strideOuter a x stride pos + 1 < a.length ∧
        ith a (strideOuter a x stride pos + 1) ≤ x) := by
  induction stride, pos using strideOuter.induct a x with
  | case1 stride pos h ih =>
      intro _
      rw [strideOuter, if_pos h]
      rcases Nat.lt_or_ge stride 2 with h2 | h2
      · have hs1 : stride = 1 := by omega
        subst hs1
        rw [show (1 : Nat) / 2 = 0 from rfl, strideOuter, if_neg (by omega)]
        simpa using strideInner_exit a x 0 pos
      · exact ih (by omega)
  | case2 stride pos h => intro h1; exact absurd h1 h

theorem strideOuter_visited (a : List Int) (x : Int) (stride pos : Nat) :
    strideOuter a x stride pos = pos ∨
      (strideOuter a x stride pos < a.length ∧
        ith a (strideOuter a x stride pos) ≤ x) := by
  induction stride, pos using strideOuter.induct a x with
  | case1 stride pos h ih =>
      rw [strideOuter, if_pos h]
      rcases ih with h1 | h1
      · rw [h1]
        rcases strideInner_visited a x (stride - 1) pos with h2 | h2
        · left; exact h2
        · right; exact h2
      · right; exact h1
  | case2 stride pos h => left; rw [strideOuter, if_neg h]

theorem strideOuter_lt (a : List Int) (x : Int) (stride pos : Nat)
    (h : pos < a.length) : strideOuter a x stride pos < a.length := by
  rcases strideOuter_visited a x stride pos with h1 | h1
  · rw [h1]; exact h
  · exact h1.1

/- On a sorted array, the final pos of the stride loops dominates every
   index whose element is at most the needle. -/
theorem strideOuter_max (a : List Int) (x : Int) (j : Nat)
    (hs : List.Sorted (· ≤ ·) a) (hj : j < a.length) (hjx : ith a j ≤ x) :
    j ≤ strideOuter a x (a.length / 2) 0 := by
  set p := strideOuter a x (a.length / 2) 0 with hp
  by_contra hc
  push_neg at hc
  have hn2 : 2 ≤ a.length := by omega
  have hexit := strideOuter_exit a x (a.length / 2) 0 (by omega)
  rw [← hp] at hexit
  have hp1 : p + 1 < a.length := by omega
  have hle : ith a (p + 1) ≤ ith a j := sorted_ith a hs (p + 1) j (by omega) hj
  exact hexit ⟨hp1, le_trans hle hjx⟩

/- Characterization of binary_stride on sorted input: when the needle
   occurs, the returned index is its greatest occurrence (and the greatest
   index whose element is at most the needle); when it does not occur on a
   non-empty array, the result is -1. -/

theorem stride_found (a : List Int) (x : Int) (hs : List.Sorted (· ≤ ·) a)
    (hx : x ∈ a) :
    ∃ p : Nat, binary_stride a x = some (p : Int) ∧ p < a.length ∧
      ith a p = x ∧ (∀ j, j < a.length → ith a j ≤ x → j ≤ p) := by
  obtain ⟨j0, hj0, hj0x⟩ := List.mem_iff_getElem.mp hx
  have hj0x : ith a j0 = x := by rw [ith_eq_getElem a j0 hj0]; exact hj0x
  set p := strideOuter a x (a.length / 2) 0 with hp
  have hplt : p < a.length := strideOuter_lt a x (a.length / 2) 0 (by omega)
  have hmax : ∀ j, j < a.length → ith a j ≤ x → j ≤ p := fun j hj hjx =>
    strideOuter_max a x j hs hj hjx
  have hpx : ith a p = x := by
    have hge : x ≤ ith a p := by
      rw [← hj0x]
      exact sorted_ith a hs j0 p (hmax j0 hj0 (le_of_eq hj0x)) hplt
    rcases strideOuter_visited a x (a.length / 2) 0 with h1 | h1
    · rw [← hp] at h1
      have hj0p := hmax j0 hj0 (le_of_eq hj0x)
      have hj00 : j0 = 0 := by omega
      rw [h1, ← hj00]; exact hj0x
    · rw [← hp] at h1
      omega
  refine ⟨p, ?_, hplt, hpx, hmax⟩
  rw [binary_stride]
  simp only [← hp, List.getElem?_eq_getElem hplt]
  rw [← ith_eq_getElem a p hplt, hpx, if_pos rfl]

theorem stride_not_found (a : List Int) (x : Int) (ha : a ≠ [])
    (hx : x ∉ a) : binary_stride a x = some (-1) := by
  have hn : 1 ≤ a.length := List.length_pos.mpr ha
  set p := strideOuter a x (a.length / 2) 0 with hp
  have hplt : p < a.length := strideOuter_lt a x (a.length / 2) 0 (by omega)
  have hne : ith a p ≠ x := fun h => hx (h ▸ ith_mem a p hplt)
  rw [binary_stride]
  simp only [← hp, List.getElem?_eq_getElem hplt]
  rw [← ith_eq_getElem a p hplt, if_neg hne]

/- One-step rewriting lemmas for the binary_search loop. -/

theorem bsearch_step_eq (a : List Int) (x : Int) (l r : Int) (h : l ≤ r)
    (heq : ith a ((l + r) / 2).toNat = x) :
    binary_search_go a x l r = (l + r) / 2 := by
  rw [binary_search_go]
  simp [h, heq]

theorem bsearch_step_lt (a : List Int) (x : Int) (l r : Int) (h : l ≤ r)
    (hne : ¬ith a ((l + r) / 2).toNat = x) (hlt : ith a ((l + r) / 2).toNat < x) :
    binary_search_go a x l r = binary_search_go a x ((l + r) / 2 + 1) r := by
  rw [binary_search_go]
  simp [h, hne, hlt]

theorem bsearch_step_gt (a : List Int) (x : Int) (l r : Int) (h : l ≤ r)
    (hne : ¬ith a ((l + r) / 2).toNat = x)
    (hnlt : ¬ith a ((l + r) / 2).toNat < x) :
    binary_search_go a x l r = binary_search_go a x l ((l + r) / 2 - 1) := by
  rw [binary_search_go]
  simp [h, hne, hnlt]

/- Correctness of binary_search.  Absence needs no sortedness: the loop can
   only return mid on an equality hit.  Presence uses sortedness to keep
   one matching index inside the shrinking bounds. -/

theorem bsearch_go_not_found (a : List Int) (x : Int)
    (hx : ∀ i, i < a.length → ith a i ≠ x) (l r : Int) :
    0 ≤ l → r < a.length → binary_search_go a x l r = -1 := by
  induction l, r using binary_search_go.induct a x with
  | case1 l r h mid heq =>
      intro hl hr
      have hmid : mid = (l + r) / 2 := rfl
      exact absurd heq (hx mid.toNat (by omega))
  | case2 l r h mid hne hlt ih =>
      intro hl hr
      have hmid : mid = (l + r) / 2 := rfl
      rw [bsearch_step_lt a x l r h hne hlt]
      exact ih (by omega) hr
  | case3 l r h mid hne hnlt ih =>
      intro hl hr
      have hmid : mid = (l + r) / 2 := rfl
      rw [bsearch_step_gt a x l r h hne hnlt]
      exact ih hl (by omega)
  | case4 l r h =>
      intro hl hr
      rw [binary_search_go, dif_neg h]

theorem bsearch_go_found (a : List Int) (x : Int)
    (hs : List.Sorted (· ≤ ·) a) (l r : Int) :
    0 ≤ l → r < a.length →
      (∃ j : Nat, l ≤ (j : Int) ∧ (j : Int) ≤ r ∧ ith a j = x) →
      ∃ i : Nat, binary_search_go a x l r = (i : Int) ∧ i < a.length ∧
        ith a i = x := by
  induction l, r using binary_search_go.induct a x with
  | case1 l r h mid heq =>
      intro hl hr hex
      have hmid : mid = (l + r) / 2 := rfl
      refine ⟨mid.toNat, ?_, by omega, heq⟩
      rw [bsearch_step_eq a x l r h heq]
      omega
  | case2 l r h mid hne hlt ih =>
      intro hl hr hex
      obtain ⟨j, hj1, hj2, hjx⟩ := hex
      have hmid : mid = (l + r) / 2 := rfl
      have hjmid : mid < (j : Int) := by
        by_contra hc
        push_neg at hc
        have hle : ith a j ≤ ith a mid.toNat :=
          sorted_ith a hs j mid.toNat (by omega) (by omega)
        omega
      rw [bsearch_step_lt a x l r h hne hlt]
      exact ih (by omega) hr ⟨j, by omega, hj2, hjx⟩
  | case3 l r h mid hne hnlt ih =>
      intro hl hr hex
      obtain ⟨j, hj1, hj2, hjx⟩ := hex
      have hmid : mid = (l + r) / 2 := rfl
      have hjmid : (j : Int) < mid := by
        by_contra hc
        push_neg at hc
        have hle : ith a mid.toNat ≤ ith a j :=
          sorted_ith a hs mid.toNat j (by omega) (by omega)
        omega
      rw [bsearch_step_gt a x l r h hne hnlt]
      exact ih hl (by omega) ⟨j, hj1, by omega, hjx⟩
  | case4 l r h =>
      intro hl hr hex
      obtain ⟨j, hj1, hj2, hjx⟩ := hex
      omega

theorem binary_search_found (a : List Int) (x : Int)
    (hs : List.Sorted (· ≤ ·) a) (hx : x ∈ a) :
    ∃ i : Nat, binary_search a x = (i : Int) ∧ i < a.length ∧ ith a i = x := by
  obtain ⟨j0, hj0, hj0x⟩ := List.mem_iff_getElem.mp hx
  have hj0x : ith a j0 = x := by rw [ith_eq_getElem a j0 hj0]; exact hj0x
  exact bsearch_go_found a x hs 0 ((a.length : Int) - 1) le_rfl (by omega)
    ⟨j0, by omega, by omega, hj0x⟩

theorem binary_search_not_found (a : List Int) (x : Int)
    (hx : ∀ i, i < a.length → ith a i ≠ x) : binary_search a x = -1 :=
  bsearch_go_not_found a x hx 0 ((a.length : Int) - 1) le_rfl (by omega)

/- Behaviour of find_crossover_point under the sign convention the source
   actually implements: the predicate is non-positive on a prefix of the
   domain and strictly positive from index k on.  When every probe stays in
   bounds (k + n / 2 <= n suffices, since every stride is at most n / 2),
   the loops stop at the last non-positive index, k - 1. -/

theorem crossInner_ok (a : List Int) (fn : Int → Int) (k s1 : Nat)
    (hneg : ∀ i, i < k → fn (ith a i) ≤ 0)
    (hpos : ∀ i, k ≤ i → i < a.length → 0 < fn (ith a i))
    (hk : k + (s1 + 1) ≤ a.length) (pos : Nat) :
    pos < k →
      ∃ p, crossInner a fn s1 pos = some p ∧ pos ≤ p ∧ p < k ∧
        k ≤ p + (s1 + 1) := by
  induction pos using crossInner.induct a fn s1 with
  | case1 pos hin hle ih =>
      intro hpk
      have hlt : pos + (s1 + 1) < k := by
        by_contra hc
        push_neg at hc
        have := hpos (pos + (s1 + 1)) hc hin
        omega
      obtain ⟨p, hp1, hp2, hp3, hp4⟩ := ih hlt
      rw [crossInner, if_pos hin, if_pos hle]
      exact ⟨p, hp1, by omega, hp3, hp4⟩
  | case2 pos hin hgt =>
      intro hpk
      rw [crossInner, if_pos hin, if_neg hgt]
      refine ⟨pos, rfl, le_rfl, hpk, ?_⟩
      by_contra hc
      push_neg at hc
      exact hgt (hneg _ (by omega))
  | case3 pos hnin =>
      intro hpk
      omega

theorem crossOuter_ok (a : List Int) (fn : Int → Int) (k : Nat)
    (hneg : ∀ i, i < k → fn (ith a i) ≤ 0)
    (hpos : ∀ i, k ≤ i → i < a.length → 0 < fn (ith a i))
    (stride pos : Nat) :
    1 ≤ stride → stride + k ≤ a.length → pos < k →
      ∃ p, crossOuter a fn stride pos = some p ∧ p < k ∧ k ≤ p + 1 := by
  induction stride, pos using crossOuter.induct a fn with
  | case1 stride pos h1 p hcp ih =>
      intro _ hkn hpk
      obtain ⟨p2, hp1, hp2, hp3, hp4⟩ :=
        crossInner_ok a fn k (stride - 1) hneg hpos (by omega) pos hpk
      rw [hcp] at hp1
      have hpp : p = p2 := Option.some.inj hp1
      subst hpp
      rw [crossOuter, if_pos h1, hcp]
      show ∃ q, crossOuter a fn (stride / 2) p = some q ∧ q < k ∧ k ≤ q + 1
      rcases Nat.lt_or_ge stride 2 with h2 | h2
      · have hs1 : stride = 1 := by omega
        subst hs1
        rw [show (1 : Nat) / 2 = 0 from rfl, crossOuter, if_neg (by omega)]
        exact ⟨p, rfl, hp3, by omega⟩
      · exact ih (by omega) (by omega) hp3
  | case2 stride pos h1 hcp =>
      intro _ hkn hpk
      obtain ⟨p2, hp1, _, _, _⟩ :=
        crossInner_ok a fn k (stride - 1) hneg hpos (by omega) pos hpk
      rw [hcp] at hp1
      exact absurd hp1 (by simp)
  | case3 stride pos h1 =>
      intro h1c
      exact absurd h1c h1

/- The source crossover routine is the spec template instantiated with the
   advance condition: probed value non-positive. -/

theorem crossInner_eq_adv (a : List Int) (fn : Int → Int) (s1 pos : Nat) :
    crossInner a fn s1 pos = advInner a (fun v => fn v ≤ 0) s1 pos := by
  induction pos using crossInner.induct a fn s1 with
  | case1 pos hin hle ih =>
      rw [crossInner, advInner, if_pos hin, if_pos hin, if_pos hle, if_pos hle]
      exact ih
  | case2 pos hin hgt =>
      rw [crossInner, advInner, if_pos hin, if_pos hin, if_neg hgt, if_neg hgt]
  | case3 pos hnin =>
      rw [crossInner, advInner, if_neg hnin, if_neg hnin]

theorem crossOuter_eq_adv (a : List Int) (fn : Int → Int) (stride pos : Nat) :
    crossOuter a fn stride pos = advOuter a (fun v => fn v ≤ 0) stride pos := by
  induction stride, pos using crossOuter.induct a fn with
  | case1 stride pos h1 p hcp ih =>
      rw [crossOuter, advOuter, if_pos h1, if_pos h1, hcp,
        ← crossInner_eq_adv a fn (stride - 1) pos, hcp]
      exact ih
  | case2 stride pos h1 hcp =>
      rw [crossOuter, advOuter, if_pos h1, if_pos h1, hcp,
        ← crossInner_eq_adv a fn (stride - 1) pos, hcp]
  | case3 stride pos h1 =>
      rw [crossOuter, advOuter, if_neg h1, if_neg h1]

/- Fuel sufficiency: each fuel-indexed loop, given fuel beyond its iteration
   bound, computes some of the direct embedding.  This is the bounded
   execution statement: every run halts within an explicit number of steps. -/

theorem strideInnerF_eq (a : List Int) (x : Int) (s1 : Nat) :
    ∀ fuel pos, a.length - pos < fuel →
      strideInnerF a x s1 fuel pos = some (strideInner a x s1 pos) := by
  intro fuel
  induction fuel with
  | zero => intro pos h; omega
  | succ fuel ih =>
      intro pos h
      by_cases hc : pos + (s1 + 1) < a.length ∧ ith a (pos + (s1 + 1)) ≤ x
      · rw [strideInnerF, if_pos hc, strideInner, dif_pos hc]
        exact ih (pos + (s1 + 1)) (by omega)
      · rw [strideInnerF, if_neg hc, strideInner, dif_neg hc]

theorem strideOuterF_eq (a : List Int) (x : Int) :
    ∀ fuel stride pos, stride + a.length < fuel →
      strideOuterF a x fuel stride pos = some (strideOuter a x stride pos) := by
  intro fuel
  induction fuel with
  | zero => intro stride pos h; omega
  | succ fuel ih =>
      intro stride pos h
      by_cases hc : 1 ≤ stride
      · rw [strideOuterF, if_pos hc,
          strideInnerF_eq a x (stride - 1) fuel pos (by omega)]
        show strideOuterF a x fuel (stride / 2)
            (strideInner a x (stride - 1) pos) = _
        rw [strideOuter, if_pos hc]
        exact ih (stride / 2) (strideInner a x (stride - 1) pos) (by omega)
      · rw [strideOuterF, if_neg hc, strideOuter, if_neg hc]

theorem bsearchF_eq (a : List Int) (x : Int) :
    ∀ fuel l r, (r + 1 - l).toNat < fuel →
      bsearchF a x fuel l r = some (binary_search_go a x l r) := by
  intro fuel
  induction fuel with
  | zero => intro l r h; omega
  | succ fuel ih =>
      intro l r h
      by_cases hc : l ≤ r
      · by_cases heq : ith a ((l + r) / 2).toNat = x
        · rw [bsearchF, if_pos hc, if_pos heq, bsearch_step_eq a x l r hc heq]
        · by_cases hlt : ith a ((l + r) / 2).toNat < x
          · rw [bsearchF, if_pos hc, if_neg heq, if_pos hlt,
              bsearch_step_lt a x l r hc heq hlt]
            exact ih ((l + r) / 2 + 1) r (by omega)
          · rw [bsearchF, if_pos hc, if_neg heq, if_neg hlt,
              bsearch_step_gt a x l r hc heq hlt]
            exact ih l ((l + r) / 2 - 1) (by omega)
      · rw [bsearchF, if_neg hc, binary_search_go, dif_neg hc]

theorem crossInnerF_eq (a : List Int) (fn : Int → Int) (s1 : Nat) :
    ∀ fuel pos, a.length - pos < fuel →
      crossInnerF a fn s1 fuel pos = some (crossInner a fn s1 pos) := by
  intro fuel
  induction fuel with
  | zero => intro pos h; omega
  | succ fuel ih =>
      intro pos h
      by_cases hin : pos + (s1 + 1) < a.length
      · by_cases hle : fn (ith a (pos + (s1 + 1))) ≤ 0
        · rw [crossInnerF, if_pos hin, if_pos hle, crossInner, if_pos hin,
            if_pos hle]
          exact ih (pos + (s1 + 1)) (by omega)
        · rw [crossInnerF, if_pos hin, if_neg hle, crossInner, if_pos hin,
            if_neg hle]
      · rw [crossInnerF, if_neg hin, crossInner, if_neg hin]

theorem crossOuterF_eq (a : List Int) (fn : Int → Int) :
    ∀ fuel stride pos, stride + a.length < fuel →
      crossOuterF a fn fuel stride pos = some (crossOuter a fn stride pos) := by
  intro fuel
  induction fuel with
  | zero => intro stride pos h; omega
  | succ fuel ih =>
      intro stride pos h
      by_cases hc : 1 ≤ stride
      · rw [crossOuterF, if_pos hc,
          crossInnerF_eq a fn (stride - 1) fuel pos (by omega),
          crossOuter, if_pos hc]
        rcases hcase : crossInner a fn (stride - 1) pos with _ | p
        · rfl
        · show crossOuterF a fn fuel (stride / 2) p = _
          exact ih (stride / 2) p (by omega)
      · rw [crossOuterF, if_neg hc, crossOuter, if_neg hc]

/- Claim theorems. -/

/-- Claim C8: the documented literal scenarios.  binary_search and
    binary_stride on [1..9] with needle 4 both return index 3; binary_stride
    returns 1 on [1,4,9] and [1,4] with needle 4, 0 on [4,9] with needle 4,
    0 on the singleton [4] with needle 4, not-found (-1) on [4] with needle
    5, and not-found for needles 14 and 0 against [1..9], [1,4,9], [1,4]
    and [4,9]. -/
theorem claim_C8_literal_scenarios :
    binary_search [1, 2, 3, 4, 5, 6, 7, 8, 9] 4 = 3 ∧
    binary_stride [1, 2, 3, 4, 5, 6, 7, 8, 9] 4 = some 3 ∧
    binary_stride [1, 4, 9] 4 = some 1 ∧
    binary_stride [1, 4] 4 = some 1 ∧
    binary_stride [4, 9] 4 = some 0 ∧
    binary_stride [4] 4 = some 0 ∧
    binary_stride [4] 5 = some (-1) ∧
    binary_stride [1, 2, 3, 4, 5, 6, 7, 8, 9] 14 = some (-1) ∧
    binary_stride [1, 4, 9] 14 = some (-1) ∧
    binary_stride [1, 4] 14 = some (-1) ∧
    binary_stride [4, 9] 14 = some (-1) ∧
    binary_stride [1, 2, 3, 4, 5, 6, 7, 8, 9] 0 = some (-1) ∧
    binary_stride [1, 4, 9] 0 = some (-1) ∧
    binary_stride [1, 4] 0 = some (-1) ∧
    binary_stride [4, 9] 0 = some (-1) := by
  refine ⟨?_, ?_, ?_, ?_, ?_, ?_, ?_, ?_, ?_, ?_, ?_, ?_, ?_, ?_, ?_⟩
  · rw [binary_search]
    norm_num
    repeat first
      | rfl
      | (rw [binary_search_go]; simp +decide [ith])
  all_goals simp +decide [binary_stride, strideOuter, strideInner, ith]

/-- Claim C2: the spec requires binary_stride to return -1 on the empty
    sequence without dereferencing, but the source has no n = 0 guard: the
    final check a[pos] == needle reads a[0] out of bounds.  The embedding
    reports the out-of-bounds read as none (not the required some (-1)). -/
theorem claim_C2_empty_reads_out_of_bounds :
    ∀ needle : Int, binary_stride [] needle = none := by
  intro needle
  simp [binary_stride, strideOuter]

/-- Claim C6: find_crossover_point has no bounds guard.  With domain size
    n = 2 and the everywhere non-positive predicate, the inner loop advances
    to pos = 1 and then probes a[2], an index >= n: the run aborts on an
    out-of-bounds read (none) instead of being guarded. -/
theorem claim_C6_crossover_reads_out_of_bounds :
    find_crossover_point [0, 0] (fun _ => -1) = none := by
  simp +decide [find_crossover_point, crossOuter, crossInner, ith]

/-- Claim C4: the source computes mid as (l + r) >> 1, the historical
    overflow pitfall, not as the overflow-proof l + (r - l) / 2 the spec
    prescribes.  At the reachable bounds l = 2^30, r = 2^31 - 2 (array size
    2^31 - 1, needle above every element, second loop iteration) the 32-bit
    sum wraps: the machine midpoint is -536870913 while the spec formula
    gives 1610612735. -/
theorem claim_C4_midpoint_overflows :
    (0 : Int) ≤ 1073741824 ∧ (1073741824 : Int) ≤ 2147483646 ∧
    (2147483646 : Int) < 2 ^ 31 ∧
    mid_code 1073741824 2147483646 = -536870913 ∧
    mid_spec 1073741824 2147483646 = 1610612735 ∧
    mid_code 1073741824 2147483646 ≠ mid_spec 1073741824 2147483646 := by
  refine ⟨by norm_num, by norm_num, by norm_num, ?_, ?_, ?_⟩ <;>
    norm_num [mid_code, mid_spec, toInt32]

/-- Claim C7: on a sorted sequence, binary_search returns an in-range index
    of a matching element whenever the needle occurs, returns the sentinel
    -1 when it does not, and in particular on the empty sequence returns -1
    immediately (the loop body, hence any array read, is never entered). -/
theorem claim_C7_binary_search_correct (a : List Int) (x : Int)
    (hs : List.Sorted (· ≤ ·) a) :
    (x ∈ a →
      ∃ i : Nat, binary_search a x = (i : Int) ∧ i < a.length ∧ ith a i = x) ∧
    (x ∉ a → binary_search a x = -1) ∧
    (a = [] → binary_search a x = -1) := by
  refine ⟨fun hx => binary_search_found a x hs hx, fun hx => ?_, fun he => ?_⟩
  · exact binary_search_not_found a x (fun i hi h => hx (h ▸ ith_mem a i hi))
  · subst he
    exact binary_search_not_found [] x (by intro i hi h; simp at hi)

/-- Witness for claim C7 at the sorted array [1, 2] with needle 2. -/
theorem claim_C7_witness :
    ((2 : Int) ∈ [(1 : Int), 2] →
      ∃ i : Nat, binary_search [1, 2] 2 = (i : Int) ∧ i < [(1 : Int), 2].length ∧
        ith [1, 2] i = 2) ∧
    ((2 : Int) ∉ [(1 : Int), 2] → binary_search [1, 2] 2 = -1) ∧
    ([(1 : Int), 2] = [] → binary_search [1, 2] 2 = -1) :=
  claim_C7_binary_search_correct [1, 2] 2 (by simp)

/-- Claim C10: on a sorted sequence containing the needle, binary_stride
    returns the greatest index at which the needle occurs, which is also
    the maximum index whose element is at most the needle. -/
theorem claim_C10_stride_returns_last_occurrence (a : List Int) (x : Int)
    (hs : List.Sorted (· ≤ ·) a) (hx : x ∈ a) :
    ∃ p : Nat, binary_stride a x = some (p : Int) ∧ p < a.length ∧
      ith a p = x ∧ (∀ j, j < a.length → ith a j = x → j ≤ p) ∧
      (∀ j, j < a.length → ith a j ≤ x → j ≤ p) := by
  obtain ⟨p, hp1, hp2, hp3, hp4⟩ := stride_found a x hs hx
  exact ⟨p, hp1, hp2, hp3, fun j hj hjx => hp4 j hj (le_of_eq hjx), hp4⟩

/-- Witness for claim C10 at the sorted array [1, 2, 2] with needle 2 (the
    needle occurs at indices 1 and 2; the greatest occurrence is 2). -/
theorem claim_C10_witness :
    ∃ p : Nat, binary_stride [1, 2, 2] 2 = some (p : Int) ∧
      p < [(1 : Int), 2, 2].length ∧ ith [1, 2, 2] p = 2 ∧
      (∀ j, j < [(1 : Int), 2, 2].length → ith [1, 2, 2] j = 2 → j ≤ p) ∧
      (∀ j, j < [(1 : Int), 2, 2].length → ith [1, 2, 2] j ≤ 2 → j ≤ p) :=
  claim_C10_stride_returns_last_occurrence [1, 2, 2] 2 (by simp) (by simp)

/-- Claim C1 as stated is false at the empty sequence: binary_search
    returns -1 there, but binary_stride does not return at all with -1 or
    an index: its final check reads a[0] out of bounds (none). -/
theorem claim_C1_counterexample :
    binary_search [] 4 = -1 ∧ binary_stride [] 4 = none ∧
    binary_stride [] 4 ≠ some (-1) := by
  refine ⟨?_, ?_, ?_⟩
  · rw [binary_search]
    norm_num
    rw [binary_search_go]
    norm_num
  · simp [binary_stride, strideOuter]
  · simp [binary_stride, strideOuter]

/-- Claim C1 amended: for every NON-EMPTY sorted sequence and every needle,
    binary_search and binary_stride agree on the found / not-found verdict
    (both -1, or both an in-range index), and any returned index holds an
    element equal to the needle. -/
theorem claim_C1_amended_equivalence (a : List Int) (x : Int) (ha : a ≠ [])
    (hs : List.Sorted (· ≤ ·) a) :
    (binary_search a x = -1 ∧ binary_stride a x = some (-1)) ∨
    (∃ i j : Nat, binary_search a x = (i : Int) ∧
      binary_stride a x = some (j : Int) ∧ i < a.length ∧ j < a.length ∧
      ith a i = x ∧ ith a j = x) := by
  by_cases hx : x ∈ a
  · right
    obtain ⟨i, hi1, hi2, hi3⟩ := binary_search_found a x hs hx
    obtain ⟨p, hp1, hp2, hp3, _⟩ := stride_found a x hs hx
    exact ⟨i, p, hi1, hp1, hi2, hp2, hi3, hp3⟩
  · left
    refine ⟨binary_search_not_found a x ?_, stride_not_found a x ha hx⟩
    intro i hi h
    exact hx (h ▸ ith_mem a i hi)

/-- Witness for the amended claim C1 at the non-empty sorted array [1, 2]
    with needle 2. -/
theorem claim_C1_witness :
    (binary_search [1, 2] 2 = -1 ∧ binary_stride [1, 2] 2 = some (-1)) ∨
    (∃ i j : Nat, binary_search [1, 2] 2 = (i : Int) ∧
      binary_stride [1, 2] 2 = some (j : Int) ∧ i < [(1 : Int), 2].length ∧
      j < [(1 : Int), 2].length ∧ ith [1, 2] i = 2 ∧ ith [1, 2] j = 2) :=
  claim_C1_amended_equivalence [1, 2] 2 (by simp) (by simp)

/-- Claim C3 as stated is false: with n = 4 and the predicate strictly
    positive on indices 0..2 and non-positive on index 3 (threshold k = 3),
    find_crossover_point returns 0, not 3: its inner loop advances while
    the predicate is NON-POSITIVE, the reverse of the convention the claim
    assumes, so a positive probe at every stride keeps pos at 0. -/
theorem claim_C3_counterexample :
    0 < (fun v : Int => if v < 3 then 1 else -1) (ith [0, 1, 2, 3] 0) ∧
    0 < (fun v : Int => if v < 3 then 1 else -1) (ith [0, 1, 2, 3] 1) ∧
    0 < (fun v : Int => if v < 3 then 1 else -1) (ith [0, 1, 2, 3] 2) ∧
    (fun v : Int => if v < 3 then 1 else -1) (ith [0, 1, 2, 3] 3) ≤ 0 ∧
    find_crossover_point [0, 1, 2, 3] (fun v => if v < 3 then 1 else -1) =
      some 0 ∧
    (some 0 : Option Nat) ≠ some 3 := by
  refine ⟨by norm_num [ith], by norm_num [ith], by norm_num [ith],
    by norm_num [ith], ?_, by simp⟩
  simp +decide [find_crossover_point, crossOuter, crossInner, ith]

/-- Claim C3 amended: find_crossover_point locates the boundary under the
    OPPOSITE sign convention (predicate non-positive on indices below k,
    strictly positive from k on) and returns k - 1, the last non-positive
    index, rather than k; the domain must moreover satisfy k + n / 2 <= n
    so that every probe of the unguarded inner loop stays in bounds. -/
theorem claim_C3_amended_crossover (a : List Int) (fn : Int → Int) (k : Nat)
    (hn : 1 ≤ a.length) (hk1 : 1 ≤ k) (hk2 : k + a.length / 2 ≤ a.length)
    (hneg : ∀ i, i < k → fn (ith a i) ≤ 0)
    (hpos : ∀ i, k ≤ i → i < a.length → 0 < fn (ith a i)) :
    find_crossover_point a fn = some (k - 1) := by
  rcases Nat.lt_or_ge a.length 2 with h2 | h2
  · have hn1 : a.length = 1 := by omega
    have hk : k = 1 := by omega
    rw [find_crossover_point, hn1, crossOuter]
    norm_num [hk]
  · have hst : 1 ≤ a.length / 2 := by omega
    obtain ⟨p, hp1, hp2, hp3⟩ :=
      crossOuter_ok a fn k hneg hpos (a.length / 2) 0 hst (by omega) (by omega)
    rw [find_crossover_point, hp1]
    congr 1
    omega

/-- Witness for the amended claim C3 at a = [5, 7] with threshold k = 1:
    the predicate is -1 on the element at index 0 and 1 on the element at
    index 1, and find_crossover_point returns k - 1 = 0. -/
theorem claim_C3_witness :
    find_crossover_point [5, 7] (fun v => if v < 7 then -1 else 1) =
      some (1 - 1) :=
  claim_C3_amended_crossover [5, 7] (fun v => if v < 7 then -1 else 1) 1
    (by norm_num) (by norm_num) (by norm_num)
    (by intro i hi; interval_cases i <;> norm_num [ith])
    (by intro i hi1 hi2; simp only [List.length_cons, List.length_nil] at hi2
        interval_cases i <;> norm_num [ith])

/-- Claim C5 as stated is false: the claim says the inner-loop advance
    condition is a strictly positive probe, but instantiating the spec
    template of section 4.3 with that condition disagrees with the source
    at a = [1, -1] with the identity predicate: the source advances on the
    non-positive probe and then reads out of bounds (none), while the
    claimed condition stops at once (some 0). -/
theorem claim_C5_counterexample :
    find_crossover_point [1, -1] (fun v => v) = none ∧
    crossover_template [1, -1] (fun v => 0 < v) = some 0 ∧
    find_crossover_point [1, -1] (fun v => v) ≠
      crossover_template [1, -1] (fun v => 0 < v) := by
  refine ⟨?_, ?_, ?_⟩
  · simp +decide [find_crossover_point, crossOuter, crossInner, ith]
  · simp +decide [crossover_template, advOuter, advInner, ith]
  · simp +decide [find_crossover_point, crossOuter, crossInner,
      crossover_template, advOuter, advInner, ith]

/-- Claim C5 amended: find_crossover_point is the spec template of section
    4.3 with the advance condition fn(a[pos+stride]) <= 0 (non-positive
    probe means keep advancing), not a strictly positive one; no equality
    check is performed after the loops and the terminal pos is returned. -/
theorem claim_C5_amended_advance_condition (a : List Int) (fn : Int → Int) :
    find_crossover_point a fn = crossover_template a (fun v => fn v ≤ 0) :=
  crossOuter_eq_adv a fn (a.length / 2) 0

/-- Claim C9: execution of every call is bounded.  For every array (of any
    length, sorted or not), every needle and every predicate, an explicit
    amount of fuel makes each fuel-indexed variant halt with exactly the
    value of the direct embedding: binary_search, binary_stride and
    find_crossover_point all complete (find_crossover_point possibly with
    the out-of-bounds abort) within finitely many loop iterations. -/
theorem claim_C9_execution_bounded (a : List Int) (x : Int) (fn : Int → Int) :
    ∃ fuel : Nat,
      binary_searchF a x fuel = some (binary_search a x) ∧
      binary_strideF a x fuel = some (binary_stride a x) ∧
      find_crossover_pointF a fn fuel = some (find_crossover_point a fn) := by
  refine ⟨2 * a.length + 2, ?_, ?_, ?_⟩
  · rw [binary_searchF, binary_search]
    exact bsearchF_eq a x (2 * a.length + 2) 0 ((a.length : Int) - 1) (by omega)
  · rw [binary_strideF, binary_stride,
      strideOuterF_eq a x (2 * a.length + 2) (a.length / 2) 0 (by omega)]
  · rw [find_crossover_pointF, find_crossover_point]
    exact crossOuterF_eq a fn (2 * a.length + 2) (a.length / 2) 0 (by omega)
